import Mathlib

/-!
# Verification of `tag_encode.h` (tag_encode / tag_decode)

A shallow embedding of the mixed-radix "tag" codec from `src/tag_encode.h`:

* `tag_encode` converts a non-negative 64-bit serial number to an
  alphanumeric tag, using the rotating digit bases `BASE_SELECT = [34, 26, 8]`.
* `tag_decode` normalizes a tag (`'0' -> 'O'`, `'1' -> 'l'`, case folding),
  reconstructs the serial positionally, and then self-checks by re-encoding.

Strings (`std::string`) are modelled as `List Char`; the C++ `long int`
accumulators of `tag_decode` are modelled as mathematical integers reduced
by `wrap64` (two's-complement wrap-around modulo `2^64`) at every update,
matching 64-bit machine arithmetic.  `tag_encode`'s own arithmetic never
overflows (`serial` only shrinks), so it is embedded with exact arithmetic.
Exceptions are modelled by `Except TagError`.
-/

namespace TagCodec

/-- The two exception kinds thrown by the codec
(`std::out_of_range`, `std::invalid_argument`). -/
inductive TagError where
  | outOfRange
  | invalidArgument
deriving DecidableEq

/-- Decidable equality of `Except` results, for evaluating concrete
encode/decode outcomes. -/
instance {e a : Type} [DecidableEq e] [DecidableEq a] : DecidableEq (Except e a) :=
  fun x y =>
    match x, y with
    | .error u, .error v =>
      if h : u = v then .isTrue (congrArg Except.error h)
      else .isFalse (by intro hc; injection hc; exact h (by assumption))
    | .error _, .ok _ => .isFalse (by intro hc; exact Except.noConfusion hc)
    | .ok _, .error _ => .isFalse (by intro hc; exact Except.noConfusion hc)
    | .ok u, .ok v =>
      if h : u = v then .isTrue (congrArg Except.ok h)
      else .isFalse (by intro hc; injection hc; exact h (by assumption))

/-- `const int N_ALPHACASE = 26;` -/
def N_ALPHACASE : Nat := 26

/-- `const int N_ALPHANUM = 34;` -/
def N_ALPHANUM : Nat := 34

/-- `const int N_DIGITS = 8;` -/
def N_DIGITS : Nat := 8

/-- `const int BASE_SELECT[] = {N_ALPHANUM, N_ALPHACASE, N_DIGITS};` -/
def BASE_SELECT : List Nat := [N_ALPHANUM, N_ALPHACASE, N_DIGITS]

/-- `BASE_SELECT[position % 3]`, the digit base used at a given position
(position 0 is the least-significant digit). -/
def baseSelect (position : Nat) : Nat := BASE_SELECT.getD (position % 3) 0

/-- The digit-to-character mapping inside `tag_encode`'s loop:
`digit_in_ascii = (digit_base != N_ALPHACASE) ? '2' + digit : 'a' + digit;`
followed by
`if (digit_base != N_ALPHACASE && digit_in_ascii > '9') digit_in_ascii = 'a' + (digit - N_DIGITS);`. -/
def tag_char (digit_base digit : Nat) : Char :=
  let a := if digit_base ≠ N_ALPHACASE then '2'.toNat + digit else 'a'.toNat + digit
  let a := if digit_base ≠ N_ALPHACASE ∧ '9'.toNat < a then 'a'.toNat + (digit - N_DIGITS) else a
  Char.ofNat a

/-- The do/while loop of `tag_encode`, producing the characters in the order
they are appended to the `ostringstream` (least-significant digit first).
Each iteration computes `digit = serial % digit_base`, `serial /= digit_base`,
and the loop repeats while `serial > 0`. -/
def encode_loop (serial : Nat) (position : Nat) : List Char :=
  let digit_base := baseSelect position
  tag_char digit_base (serial % digit_base) ::
    (if h : 0 < serial / digit_base then encode_loop (serial / digit_base) (position + 1) else [])
termination_by serial
decreasing_by
  have hb : 8 ≤ baseSelect position := by
    have h3 : position % 3 < 3 := Nat.mod_lt _ (by omega)
    unfold baseSelect BASE_SELECT N_ALPHANUM N_ALPHACASE N_DIGITS
    interval_cases hm : position % 3 <;> simp
  have hs : 0 < serial := Nat.pos_of_ne_zero (by rintro rfl; simp [Nat.zero_div] at h)
  exact Nat.div_lt_self hs (by omega)

/-- `tag_encode`: rejects negative serials with `std::out_of_range`, otherwise
runs the digit loop and reverses the accumulated string. -/
def tag_encode (serial : Int) : Except TagError (List Char) :=
  if serial < 0 then .error .outOfRange
  else .ok (encode_loop serial.toNat 0).reverse

/-- Fuel-indexed, structurally recursive form of `encode_loop`, used to
evaluate concrete instances (the well-founded `encode_loop` does not reduce
definitionally); it agrees with `encode_loop` whenever `fuel` digit positions
suffice, i.e. whenever `serial < prodBasesFrom position fuel`. -/
def encode_loop_fuel : Nat → Nat → Nat → List Char
  | 0, _, _ => []
  | fuel + 1, serial, position =>
    let digit_base := baseSelect position
    tag_char digit_base (serial % digit_base) ::
      (if 0 < serial / digit_base then
        encode_loop_fuel fuel (serial / digit_base) (position + 1) else [])

/-- `std::string::find(c, start)` specialised to a single character, with `i`
the index of the head of the list being scanned: index of the first occurrence
of `c`, or `none` (`npos`). -/
def strFindAux : List Char → Char → Nat → Option Nat
  | [], _, _ => none
  | x :: xs, c, i => if x = c then some i else strFindAux xs c (i + 1)

/-- `tag.find(c, start)`. -/
def strFind (l : List Char) (c : Char) (start : Nat) : Option Nat :=
  strFindAux (l.drop start) c start

/-- One of the "user-proof" pre-processing loops of `tag_decode`:
`for(size_t pos = tag.find(oldC, start); pos != npos; pos = tag.find(oldC, pos+1))`
with body `tag.replace(pos, 1, newC)` (a single-character replacement). -/
def replace_loop (tag : List Char) (oldC newC : Char) (start : Nat) : List Char :=
  match hf : strFind tag oldC start with
  | none => tag
  | some pos => replace_loop (tag.set pos newC) oldC newC (pos + 1)
termination_by tag.length - start
decreasing_by
  have haux : ∀ (l : List Char) (c : Char) (i p : Nat),
      strFindAux l c i = some p → i ≤ p ∧ p < i + l.length := by
    intro l
    induction l with
    | nil => intro c i p h; simp [strFindAux] at h
    | cons x xs ih =>
      intro c i p h
      by_cases hx : x = c
      · simp [strFindAux, hx] at h
        simp only [List.length_cons]
        omega
      · simp [strFindAux, hx] at h
        have := ih c (i + 1) p h
        simp only [List.length_cons]
        omega
  have hb : start ≤ pos ∧ pos < tag.length := by
    have hb2 := haux (tag.drop start) oldC start pos hf
    rw [List.length_drop] at hb2
    rcases le_or_lt start tag.length with hs | hs
    · omega
    · rw [strFind, List.drop_eq_nil_of_le (Nat.le_of_lt hs)] at hf
      simp [strFindAux] at hf
  simp only [List.length_set]
  omega

/-- The full pre-processing pass of `tag_decode`: replace all `'0'` by `'O'`,
then all `'1'` by `'l'`. -/
def preprocess (tag : List Char) : List Char :=
  replace_loop (replace_loop tag '0' 'O' 0) '1' 'l' 0

/-- Two's-complement 64-bit wrap-around: the value congruent modulo `2 ^ 64`
that lies in `[-2 ^ 63, 2 ^ 63)`.  Every `long int` update in `tag_decode` is
reduced by this, modelling 64-bit machine arithmetic. -/
def wrap64 (x : Int) : Int := (x + 2 ^ 63) % 2 ^ 64 - 2 ^ 63

/-- `int tolower(int c)` in the C locale: fold `'A'..'Z'` to lowercase. -/
def toLowerChar (c : Char) : Char :=
  if 'A'.toNat ≤ c.toNat ∧ c.toNat ≤ 'Z'.toNat then Char.ofNat (c.toNat + 32) else c

/-- `toupper` analogue, used to state the case-insensitivity property. -/
def toUpperChar (c : Char) : Char :=
  if 'a'.toNat ≤ c.toNat ∧ c.toNat ≤ 'z'.toNat then Char.ofNat (c.toNat - 32) else c

/-- The digit recovered by `tag_decode` from the (already case-folded)
character at a position whose base is `digit_base`:
`if(digit_base == N_ALPHACASE || digit_in_ascii > '9')` then
`digit = digit_in_ascii - 'a' + ((digit_base != N_ALPHACASE) ? N_DIGITS : 0)`,
else `digit = digit_in_ascii - '2'` (plain `int` arithmetic, may be negative). -/
def decode_digit (digit_base : Nat) (digit_in_ascii : Char) : Int :=
  if digit_base = N_ALPHACASE ∨ '9'.toNat < digit_in_ascii.toNat then
    (digit_in_ascii.toNat : Int) - ('a'.toNat : Int) +
      (if digit_base ≠ N_ALPHACASE then (N_DIGITS : Int) else 0)
  else (digit_in_ascii.toNat : Int) - ('2'.toNat : Int)

/-- The do/while loop of `tag_decode`.  `position` holds its value before the
`position++` of the iteration about to run; the iteration case-folds
`tag[tag_size - position]` in place, accumulates `serial += digit * mult` and
`mult *= digit_base` in `long int` (wrapping) arithmetic, and repeats while
`position < tag_size`.  Returns the (fully folded) tag and the serial. -/
def decode_iter (tag : List Char) (tag_size position : Nat) (serial mult : Int) :
    List Char × Int :=
  let digit_base := baseSelect position
  let position' := position + 1
  let digit_in_ascii := toLowerChar (tag.getD (tag_size - position') 'a')
  let tag' := tag.set (tag_size - position') digit_in_ascii
  let serial' := wrap64 (serial + wrap64 (decode_digit digit_base digit_in_ascii * mult))
  let mult' := wrap64 (mult * (digit_base : Int))
  if position' < tag_size then decode_iter tag' tag_size position' serial' mult'
  else (tag', serial')
termination_by tag_size - position

/-- `tag_decode`: reject the empty tag, rewrite `'0' -> 'O'` and `'1' -> 'l'`,
run the reconstruction loop (which also case-folds the tag in place), then
re-encode the reconstructed serial and compare character-for-character with
the folded tag; a mismatch, or an `out_of_range` from the re-encoding, is
turned into `invalid_argument`. -/
def tag_decode (tag : List Char) : Except TagError Int :=
  if tag.length < 1 then .error .invalidArgument
  else
    let r := decode_iter (preprocess tag) tag.length 0 0 1
    match tag_encode r.2 with
    | .error _ => .error .invalidArgument
    | .ok enc => if enc ≠ r.1 then .error .invalidArgument else .ok r.2

/-- Reference (little-endian) form of the reconstruction loop: fold over the
reversed tag with wrapped 64-bit arithmetic, returning `(serial, mult)`. -/
def decode_fold : List Char → Nat → Int → Int → Int × Int
  | [], _, serial, mult => (serial, mult)
  | c :: rest, position, serial, mult =>
    decode_fold rest (position + 1)
      (wrap64 (serial + wrap64 (decode_digit (baseSelect position) (toLowerChar c) * mult)))
      (wrap64 (mult * (baseSelect position : Int)))

/-- The reconstruction fold with exact (unbounded) integer arithmetic. -/
def decode_fold_exact : List Char → Nat → Int → Int → Int × Int
  | [], _, serial, mult => (serial, mult)
  | c :: rest, position, serial, mult =>
    decode_fold_exact rest (position + 1)
      (serial + decode_digit (baseSelect position) (toLowerChar c) * mult)
      (mult * (baseSelect position : Int))

/-- The serial value reconstructed by `tag_decode`'s loop (before the
self-check). -/
def reconstructed_serial (tag : List Char) : Int :=
  (decode_fold (preprocess tag).reverse 0 0 1).1

/-- Product of the digit bases at positions `position, …, position + len - 1`;
the place value of position `position + len` relative to position `position`. -/
def prodBasesFrom (position : Nat) : Nat → Nat
  | 0 => 1
  | len + 1 => baseSelect position * prodBasesFrom (position + 1) len

/-- Place value of position `len`: the product `base(0) * … * base(len-1)`. -/
def prodBases (len : Nat) : Nat := prodBasesFrom 0 len

/-- Pointwise single-character substitution; `replace_loop l oldC newC 0` is
proved below to act as `l.map (substChar oldC newC)`. -/
def substChar (oldC newC c : Char) : Char := if c = oldC then newC else c

/-- The character-level normalization `tag_decode` applies before comparing:
`'0' -> 'O'`, `'1' -> 'l'`, then case folding. -/
def normChar (c : Char) : Char :=
  toLowerChar (substChar '1' 'l' (substChar '0' 'O' c))

/-- The normalized tag that `tag_decode`'s self-check compares against: the
input after digit rewriting and in-place case folding. -/
def normTag (tag : List Char) : List Char := (preprocess tag).map toLowerChar

/-- Modelled from the spec's words (§4.1 decode, for the C2 statement):
"every occurrence of the digit `'0'` is rewritten to the letter `'o'`; every
occurrence of the digit `'1'` is rewritten to the letter `'l'`", then "every
character is treated as lowercase". -/
def normalize_spec (tag : List Char) : List Char :=
  (tag.map fun c => if c = '0' then 'o' else if c = '1' then 'l' else c).map toLowerChar

/-- Correcting a mistyped tag: replace the ambiguous digit `'0'` by the letter
`'o'` and the digit `'1'` by the letter `'l'` (the substitution of claim C3). -/
def mistype_fix (c : Char) : Char :=
  if c = '0' then 'o' else if c = '1' then 'l' else c

/-- The character encoding digit value `0` at a given position. -/
def zero_char (position : Nat) : Char := tag_char (baseSelect position) 0

/-- Letters `a..z` (the alphabetic subset of the tag alphabet). -/
def isLetterChar (c : Char) : Prop := 'a'.toNat ≤ c.toNat ∧ c.toNat ≤ 'z'.toNat

/-- Digits `2..9` (the pure-digit subset of the tag alphabet). -/
def isDigitChar (c : Char) : Prop := '2'.toNat ≤ c.toNat ∧ c.toNat ≤ '9'.toNat

/-- Modelled from the spec's words (claim C4): position `p` (0-based,
least-significant first) of `encode(s)` holds
`base(p) = [34, 26, 8][p mod 3]` applied to
`d = (s div (base(0) * … * base(p-1))) mod base(p)`, with base 34 giving
`'2' + d` for `d < 8` and `'a' + (d - 8)` otherwise, base 26 giving
`'a' + d`, and base 8 giving `'2' + d`. -/
def spec_char (p s : Nat) : Char :=
  let base := [34, 26, 8].getD (p % 3) 0
  let d := (s / prodBases p) % base
  if base = 34 then
    (if d < 8 then Char.ofNat ('2'.toNat + d) else Char.ofNat ('a'.toNat + (d - 8)))
  else if base = 26 then Char.ofNat ('a'.toNat + d)
  else Char.ofNat ('2'.toNat + d)

theorem baseSelect_eq (position : Nat) :
    baseSelect position =
      if position % 3 = 0 then 34 else if position % 3 = 1 then 26 else 8 := by
  have h3 : position % 3 < 3 := Nat.mod_lt _ (by omega)
  unfold baseSelect BASE_SELECT N_ALPHANUM N_ALPHACASE N_DIGITS
  interval_cases h : position % 3 <;> simp

theorem baseSelect_ge_eight (position : Nat) : 8 ≤ baseSelect position := by
  rw [baseSelect_eq]; split <;> [omega; skip]; split <;> omega

theorem strFindAux_some_bounds :
    ∀ (l : List Char) (c : Char) (i p : Nat),
      strFindAux l c i = some p → i ≤ p ∧ p < i + l.length := by
  intro l
  induction l with
  | nil => intro c i p h; simp [strFindAux] at h
  | cons x xs ih =>
    intro c i p h
    by_cases hx : x = c
    · simp [strFindAux, hx] at h
      simp only [List.length_cons]
      omega
    · simp [strFindAux, hx] at h
      have := ih c (i + 1) p h
      simp only [List.length_cons]
      omega

theorem strFind_some_bounds (l : List Char) (c : Char) (start p : Nat)
    (h : strFind l c start = some p) : start ≤ p ∧ p < l.length := by
  have hb := strFindAux_some_bounds (l.drop start) c start p h
  rw [List.length_drop] at hb
  rcases le_or_lt start l.length with hs | hs
  · omega
  · rw [strFind, List.drop_eq_nil_of_le (Nat.le_of_lt hs)] at h
    simp [strFindAux] at h

theorem prodBasesFrom_pos (position len : Nat) : 0 < prodBasesFrom position len := by
  induction len generalizing position with
  | zero => exact Nat.one_pos
  | succ n ih =>
    have hb := baseSelect_ge_eight position
    have := ih (position + 1)
    exact Nat.mul_pos (by omega) this

theorem prodBasesFrom_succ_right (position len : Nat) :
    prodBasesFrom position (len + 1) =
      prodBasesFrom position len * baseSelect (position + len) := by
  induction len generalizing position with
  | zero => simp [prodBasesFrom]
  | succ n ih =>
    have h1 : prodBasesFrom position (n + 1 + 1) =
        baseSelect position * prodBasesFrom (position + 1) (n + 1) := rfl
    have h2 : prodBasesFrom position (n + 1) =
        baseSelect position * prodBasesFrom (position + 1) n := rfl
    have h3 : position + 1 + n = position + (n + 1) := by omega
    rw [h1, ih (position + 1), h2, h3, Nat.mul_assoc]

/- ### Character-level facts, by exhaustive check over the bounded digit range -/

theorem toNat_ofNat_of_lt {n : Nat} (h : n < 55296) : (Char.ofNat n).toNat = n := by
  have hv : n.isValidChar := Or.inl h
  simp only [Char.ofNat, hv, dite_true, Char.ofNatAux, Char.toNat]
  rfl

theorem baseSelect_mem (position : Nat) : baseSelect position ∈ BASE_SELECT := by
  rw [baseSelect_eq]
  unfold BASE_SELECT N_ALPHANUM N_ALPHACASE N_DIGITS
  split_ifs <;> simp

/-- Exhaustive check of the per-digit facts used everywhere below: characters
emitted by `tag_encode` are case-fold fixed points, decode back to the digit
they encode, are never `'0'` or `'1'`, and lie in `2..9 ∪ a..z`. -/
theorem tag_char_spec :
    ∀ b ∈ BASE_SELECT, ∀ d, d < b →
      toLowerChar (tag_char b d) = tag_char b d ∧
      decode_digit b (tag_char b d) = (d : Int) ∧
      tag_char b d ≠ '0' ∧ tag_char b d ≠ '1' ∧
      (('2'.toNat ≤ (tag_char b d).toNat ∧ (tag_char b d).toNat ≤ '9'.toNat) ∨
       ('a'.toNat ≤ (tag_char b d).toNat ∧ (tag_char b d).toNat ≤ 'z'.toNat)) := by
  decide

/-- Characters emitted at a letters-only (base-26) position are letters. -/
theorem tag_char_letters :
    ∀ d, d < 26 → 'a'.toNat ≤ (tag_char 26 d).toNat ∧ (tag_char 26 d).toNat ≤ 'z'.toNat := by
  decide

/-- Characters emitted at a digits-only (base-8) position are digits. -/
theorem tag_char_digits :
    ∀ d, d < 8 → '2'.toNat ≤ (tag_char 8 d).toNat ∧ (tag_char 8 d).toNat ≤ '9'.toNat := by
  decide

/-- Round trip through `toUpperChar`: exhaustive check on emitted characters. -/
theorem tag_char_upper_spec :
    ∀ b ∈ BASE_SELECT, ∀ d, d < b →
      toLowerChar (toUpperChar (tag_char b d)) = tag_char b d ∧
      toUpperChar (tag_char b d) ≠ '0' ∧ toUpperChar (tag_char b d) ≠ '1' := by
  decide

/- ### `wrap64` -/

theorem wrap64_eq_self {x : Int} (h1 : -(2 ^ 63) ≤ x) (h2 : x < 2 ^ 63) :
    wrap64 x = x := by
  have e63 : (2 : Int) ^ 63 = 9223372036854775808 := by norm_num
  have e64 : (2 : Int) ^ 64 = 18446744073709551616 := by norm_num
  unfold wrap64
  rw [Int.emod_eq_of_lt (by omega) (by omega)]
  omega

theorem wrap64_bounds (x : Int) : -(2 ^ 63) ≤ wrap64 x ∧ wrap64 x < 2 ^ 63 := by
  have e63 : (2 : Int) ^ 63 = 9223372036854775808 := by norm_num
  have e64 : (2 : Int) ^ 64 = 18446744073709551616 := by norm_num
  unfold wrap64
  have h1 := Int.emod_nonneg (x + 2 ^ 63) (b := 2 ^ 64) (by omega)
  have h2 := Int.emod_lt_of_pos (x + 2 ^ 63) (b := 2 ^ 64) (by omega)
  omega

/- ### Structure of `encode_loop` -/

theorem encode_loop_eq (serial position : Nat) :
    encode_loop serial position =
      tag_char (baseSelect position) (serial % baseSelect position) ::
        (if 0 < serial / baseSelect position then
          encode_loop (serial / baseSelect position) (position + 1) else []) := by
  rw [encode_loop]
  split <;> rfl

theorem encode_loop_ne_nil (serial position : Nat) : encode_loop serial position ≠ [] := by
  rw [encode_loop_eq]
  exact List.cons_ne_nil _ _

theorem encode_loop_length_pos (serial position : Nat) :
    0 < (encode_loop serial position).length :=
  List.length_pos.mpr (encode_loop_ne_nil serial position)

/-- Positional description of the encoder output (little-endian index `i`):
the digit is the mixed-radix digit of `n` at place value `prodBasesFrom q i`. -/
theorem encode_loop_get :
    ∀ (n q : Nat), ∀ (i : Nat), i < (encode_loop n q).length →
      (encode_loop n q).getD i 'a' =
        tag_char (baseSelect (q + i)) ((n / prodBasesFrom q i) % baseSelect (q + i)) := by
  intro n q
  induction n, q using encode_loop.induct with
  | _ n q db ih =>
    intro i h
    by_cases hpos : 0 < n / baseSelect q
    · rw [encode_loop_eq] at h ⊢
      rw [if_pos hpos] at h ⊢
      match i with
      | 0 =>
        simp only [List.getD_cons_zero, prodBasesFrom, Nat.add_zero, Nat.div_one]
      | j + 1 =>
        simp only [List.getD_cons_succ]
        rw [ih hpos j (by simpa using h)]
        have h1 : q + 1 + j = q + (j + 1) := by omega
        have h2 : n / baseSelect q / prodBasesFrom (q + 1) j = n / prodBasesFrom q (j + 1) := by
          rw [Nat.div_div_eq_div_mul]
          rfl
        rw [h1, h2]
    · rw [encode_loop_eq] at h ⊢
      rw [if_neg hpos] at h ⊢
      match i with
      | 0 =>
        simp only [List.getD_cons_zero, prodBasesFrom, Nat.add_zero, Nat.div_one]
      | j + 1 =>
        simp only [List.length_cons, List.length_nil] at h
        omega

/-- The encoder never emits more digits than needed: `n` is below the place
value just past the last emitted position. -/
theorem encode_loop_lt_prod :
    ∀ (n q : Nat), n < prodBasesFrom q (encode_loop n q).length := by
  intro n q
  induction n, q using encode_loop.induct with
  | _ n q db ih =>
    have hb := baseSelect_ge_eight q
    by_cases hpos : 0 < n / baseSelect q
    · rw [encode_loop_eq, if_pos hpos]
      simp only [List.length_cons]
      have hrec := ih hpos
      rw [prodBasesFrom]
      have := (Nat.div_lt_iff_lt_mul (k := baseSelect q) (by omega)).mp hrec
      calc n < prodBasesFrom (q + 1) (encode_loop (n / baseSelect q) (q + 1)).length
               * baseSelect q := this
        _ = baseSelect q * prodBasesFrom (q + 1)
              (encode_loop (n / baseSelect q) (q + 1)).length := Nat.mul_comm _ _
    · rw [encode_loop_eq, if_neg hpos]
      simp only [List.length_cons, List.length_nil]
      have hn : n < baseSelect q := by
        rcases Nat.lt_or_ge n (baseSelect q) with h | h
        · exact h
        · exact absurd (Nat.one_le_div_iff (by omega) |>.mpr h) (by omega)
      calc n < baseSelect q := hn
        _ = baseSelect q * prodBasesFrom (q + 1) 0 := by
              rw [prodBasesFrom, Nat.mul_one]
        _ = prodBasesFrom q 1 := rfl

/-- A tag of two or more digits encodes a value at least the place value of
its most significant position: the leading digit is non-zero. -/
theorem encode_loop_prod_le :
    ∀ (n q : Nat), 2 ≤ (encode_loop n q).length →
      prodBasesFrom q ((encode_loop n q).length - 1) ≤ n := by
  intro n q
  induction n, q using encode_loop.induct with
  | _ n q db ih =>
    intro hlen
    have hb := baseSelect_ge_eight q
    by_cases hpos : 0 < n / baseSelect q
    · rw [encode_loop_eq, if_pos hpos] at hlen ⊢
      simp only [List.length_cons] at hlen ⊢
      set L := (encode_loop (n / baseSelect q) (q + 1)).length with hL
      have hL1 : 1 ≤ L := encode_loop_length_pos _ _
      have hbn : baseSelect q ≤ n := (Nat.one_le_div_iff (by omega)).mp hpos
      rcases Nat.lt_or_ge L 2 with hL2 | hL2
      · have : L = 1 := by omega
        rw [this]
        have h1 : prodBasesFrom q (1 + 1 - 1) = baseSelect q * prodBasesFrom (q + 1) 0 := rfl
        rw [h1, prodBasesFrom, Nat.mul_one]
        exact hbn
      · have hrec := ih hpos hL2
        have hsplit : L + 1 - 1 = (L - 1) + 1 := by omega
        rw [hsplit]
        have h1 : prodBasesFrom q ((L - 1) + 1) =
            baseSelect q * prodBasesFrom (q + 1) (L - 1) := rfl
        rw [h1]
        calc baseSelect q * prodBasesFrom (q + 1) (L - 1)
            ≤ baseSelect q * (n / baseSelect q) :=
              Nat.mul_le_mul_left _ hrec
          _ ≤ n := Nat.mul_div_le n (baseSelect q)
    · rw [encode_loop_eq, if_neg hpos] at hlen
      simp only [List.length_cons, List.length_nil] at hlen
      omega

/-- Every character of the encoder output is `tag_char b d` for one of the
three bases and a digit `d < b`. -/
theorem encode_loop_mem :
    ∀ (n q : Nat) (c : Char), c ∈ encode_loop n q →
      ∃ b d, b ∈ BASE_SELECT ∧ d < b ∧ c = tag_char b d := by
  intro n q
  induction n, q using encode_loop.induct with
  | _ n q db ih =>
    intro c hc
    have hb := baseSelect_ge_eight q
    rw [encode_loop_eq] at hc
    rcases List.mem_cons.mp hc with hc | hc
    · exact ⟨baseSelect q, n % baseSelect q, baseSelect_mem q,
        Nat.mod_lt _ (by omega), hc⟩
    · by_cases hpos : 0 < n / baseSelect q
      · rw [if_pos hpos] at hc
        exact ih hpos c hc
      · rw [if_neg hpos] at hc
        simp at hc


/- ### The reconstruction fold inverts the encoder -/

theorem decode_digit_tag_char (q d : Nat) (hd : d < baseSelect q) :
    decode_digit (baseSelect q) (toLowerChar (tag_char (baseSelect q) d)) = (d : Int) := by
  have hs := tag_char_spec (baseSelect q) (baseSelect_mem q) d hd
  rw [hs.1]
  exact hs.2.1

theorem decode_fold_exact_encode :
    ∀ (n q : Nat) (s m : Int),
      (decode_fold_exact (encode_loop n q) q s m).1 = s + (n : Int) * m := by
  intro n q
  induction n, q using encode_loop.induct with
  | _ n q db ih =>
    have hdb : db = baseSelect q := rfl
    rw [hdb] at ih
    intro s m
    have hb := baseSelect_ge_eight q
    have hmod : n % baseSelect q < baseSelect q := Nat.mod_lt _ (by omega)
    have hkey : ((baseSelect q : Nat) : Int) * ((n / baseSelect q : Nat) : Int) +
        ((n % baseSelect q : Nat) : Int) = (n : Int) := by
      exact_mod_cast congrArg (fun z : Nat => (z : Int)) (Nat.div_add_mod n (baseSelect q))
    rw [encode_loop_eq]
    by_cases hpos : 0 < n / baseSelect q
    · rw [if_pos hpos]
      simp only [decode_fold_exact]
      rw [decode_digit_tag_char q _ hmod, ih hpos]
      linear_combination (m : Int) * hkey
    · rw [if_neg hpos]
      have hnlt : n < baseSelect q := by
        rcases Nat.lt_or_ge n (baseSelect q) with h | h
        · exact h
        · exact absurd ((Nat.one_le_div_iff (by omega)).mpr h) (by omega)
      simp only [decode_fold_exact]
      rw [decode_digit_tag_char q _ hmod, Nat.mod_eq_of_lt hnlt]

theorem decode_fold_encode :
    ∀ (n q : Nat) (s m : Int), 0 ≤ s → 1 ≤ m → s + (n : Int) * m < 2 ^ 63 →
      (decode_fold (encode_loop n q) q s m).1 = s + (n : Int) * m ∧
      ∀ k, (decode_fold ((encode_loop n q).take k) q s m).1 =
           (decode_fold_exact ((encode_loop n q).take k) q s m).1 := by
  intro n q
  induction n, q using encode_loop.induct with
  | _ n q db ih =>
    have hdb : db = baseSelect q := rfl
    rw [hdb] at ih
    intro s m hs hm htot
    have hb := baseSelect_ge_eight q
    have hmod : n % baseSelect q < baseSelect q := Nat.mod_lt _ (by omega)
    have hkey : ((baseSelect q : Nat) : Int) * ((n / baseSelect q : Nat) : Int) +
        ((n % baseSelect q : Nat) : Int) = (n : Int) := by
      exact_mod_cast congrArg (fun z : Nat => (z : Int)) (Nat.div_add_mod n (baseSelect q))
    have hd0 : (0 : Int) ≤ ((n % baseSelect q : Nat) : Int) := Int.natCast_nonneg _
    have hdn : ((n % baseSelect q : Nat) : Int) ≤ (n : Int) := by
      exact_mod_cast Nat.mod_le n (baseSelect q)
    have hm0 : (0 : Int) ≤ m := by omega
    have hnm0 : (0 : Int) ≤ (n : Int) * m := mul_nonneg (Int.natCast_nonneg _) hm0
    have hdm_le : ((n % baseSelect q : Nat) : Int) * m ≤ (n : Int) * m :=
      mul_le_mul_of_nonneg_right hdn hm0
    have hdm0 : (0 : Int) ≤ ((n % baseSelect q : Nat) : Int) * m := mul_nonneg hd0 hm0
    have hw1 : wrap64 (((n % baseSelect q : Nat) : Int) * m) =
        ((n % baseSelect q : Nat) : Int) * m := wrap64_eq_self (by omega) (by omega)
    have hw2 : wrap64 (s + ((n % baseSelect q : Nat) : Int) * m) =
        s + ((n % baseSelect q : Nat) : Int) * m := wrap64_eq_self (by omega) (by omega)
    by_cases hpos : 0 < n / baseSelect q
    · have hq1 : (1 : Int) ≤ ((n / baseSelect q : Nat) : Int) := by exact_mod_cast hpos
      have hbi : (8 : Int) ≤ ((baseSelect q : Nat) : Int) := by exact_mod_cast hb
      have hm1 : (1 : Int) ≤ m * ((baseSelect q : Nat) : Int) := by nlinarith
      have htot' : (s + ((n % baseSelect q : Nat) : Int) * m) +
          ((n / baseSelect q : Nat) : Int) * (m * ((baseSelect q : Nat) : Int))
          = s + (n : Int) * m := by
        linear_combination (m : Int) * hkey
      have hmb_lt : m * ((baseSelect q : Nat) : Int) < 2 ^ 63 := by nlinarith
      have hw3 : wrap64 (m * ((baseSelect q : Nat) : Int)) =
          m * ((baseSelect q : Nat) : Int) := wrap64_eq_self (by omega) hmb_lt
      have hrec := ih hpos (s + ((n % baseSelect q : Nat) : Int) * m)
        (m * ((baseSelect q : Nat) : Int)) (by linarith [hdm0]) hm1 (by linarith [htot'])
      constructor
      · rw [encode_loop_eq, if_pos hpos]
        simp only [decode_fold]
        rw [decode_digit_tag_char q _ hmod, hw1, hw2, hw3, hrec.1]
        linear_combination htot'
      · intro k
        match k with
        | 0 => simp [decode_fold, decode_fold_exact]
        | j + 1 =>
          rw [encode_loop_eq, if_pos hpos, List.take_succ_cons]
          simp only [decode_fold, decode_fold_exact]
          rw [decode_digit_tag_char q _ hmod, hw1, hw2, hw3]
          exact hrec.2 j
    · have hnlt : n < baseSelect q := by
        rcases Nat.lt_or_ge n (baseSelect q) with h | h
        · exact h
        · exact absurd ((Nat.one_le_div_iff (by omega)).mpr h) (by omega)
      have hdeq : ((n % baseSelect q : Nat) : Int) = (n : Int) := by
        exact_mod_cast congrArg (fun z : Nat => (z : Int)) (Nat.mod_eq_of_lt hnlt)
      constructor
      · rw [encode_loop_eq, if_neg hpos]
        simp only [decode_fold]
        rw [decode_digit_tag_char q _ hmod, hw1, hw2, hdeq]
      · intro k
        match k with
        | 0 => simp [decode_fold, decode_fold_exact]
        | j + 1 =>
          rw [encode_loop_eq, if_neg hpos, List.take_succ_cons, List.take_nil]
          simp only [decode_fold, decode_fold_exact]
          rw [decode_digit_tag_char q _ hmod, hw1, hw2]

/-- The decode fold applied to an encoder output reconstructs the serial. -/
theorem decode_fold_serial (s : Int) (h0 : 0 ≤ s) (hlt : s < 2 ^ 63) :
    (decode_fold (encode_loop s.toNat 0) 0 0 1).1 = s := by
  have hcast : ((s.toNat : Nat) : Int) = s := Int.toNat_of_nonneg h0
  have hb : (0 : Int) + (s.toNat : Int) * 1 < 2 ^ 63 := by
    rw [hcast]
    omega
  have h := (decode_fold_encode s.toNat 0 0 1 le_rfl le_rfl hb).1
  rw [h, hcast]
  omega


/- ### The find/replace loops act pointwise -/

theorem strFindAux_none_iff :
    ∀ (l : List Char) (c : Char) (i : Nat), strFindAux l c i = none ↔ c ∉ l := by
  intro l
  induction l with
  | nil => intro c i; simp [strFindAux]
  | cons x xs ih =>
    intro c i
    by_cases hx : x = c
    · rw [strFindAux, if_pos hx]
      simp [hx]
    · have hx' : ¬ c = x := fun h => hx h.symm
      rw [strFindAux, if_neg hx, ih c (i + 1)]
      simp [List.mem_cons, hx']

theorem strFindAux_some_split :
    ∀ (l : List Char) (c : Char) (i p : Nat), strFindAux l c i = some p →
      ∃ l1 l2, l = l1 ++ c :: l2 ∧ c ∉ l1 ∧ p = i + l1.length := by
  intro l
  induction l with
  | nil => intro c i p h; simp [strFindAux] at h
  | cons x xs ih =>
    intro c i p h
    by_cases hx : x = c
    · rw [strFindAux, if_pos hx] at h
      refine ⟨[], xs, by simp [hx], by simp, ?_⟩
      simp at h
      simp [h]
    · rw [strFindAux, if_neg hx] at h
      obtain ⟨l1, l2, heq, hmem, hp⟩ := ih c (i + 1) p h
      refine ⟨x :: l1, l2, by simp [heq], ?_, by simp [hp]; omega⟩
      simp only [List.mem_cons, not_or]
      exact ⟨fun hcx => hx hcx.symm, hmem⟩

theorem set_len_append (X : List Char) (y : Char) (Z : List Char) (c : Char) :
    (X ++ y :: Z).set X.length c = X ++ c :: Z := by
  induction X with
  | nil => rfl
  | cons a as ih => simp [List.set_cons_succ, ih]

theorem take_len_succ_append (X : List Char) (y : Char) (Z : List Char) :
    (X ++ y :: Z).take (X.length + 1) = X ++ [y] := by
  induction X with
  | nil => simp
  | cons a as ih => simp [ih]

theorem drop_len_succ_append (X : List Char) (y : Char) (Z : List Char) :
    (X ++ y :: Z).drop (X.length + 1) = Z := by
  induction X with
  | nil => simp
  | cons a as ih => simpa using ih

theorem map_substChar_of_not_mem (oldC newC : Char) :
    ∀ (l : List Char), oldC ∉ l → l.map (substChar oldC newC) = l := by
  intro l
  induction l with
  | nil => intro h; rfl
  | cons a as ih =>
    intro h
    simp only [List.mem_cons, not_or] at h
    have ha : ¬ a = oldC := fun hh => h.1 hh.symm
    simp [substChar, ha, ih h.2]

/-- The C++ find/replace loop over the whole string is the pointwise
substitution (provided the replacement character differs from the searched
one, as in both uses). -/
theorem replace_loop_eq_map :
    ∀ (l : List Char) (oldC newC : Char) (start : Nat), newC ≠ oldC →
      replace_loop l oldC newC start =
        l.take start ++ (l.drop start).map (substChar oldC newC) := by
  intro l oldC newC start
  induction l, oldC, newC, start using replace_loop.induct with
  | case1 tag oldC newC start hf =>
    intro _hne
    have hnone : oldC ∉ tag.drop start := (strFindAux_none_iff _ _ _).mp hf
    rw [replace_loop]
    split
    · rw [map_substChar_of_not_mem _ _ _ hnone, List.take_append_drop]
    · rename_i pos heq
      rw [hf] at heq
      cases heq
  | case2 tag oldC newC start pos hf ih =>
    intro hne
    obtain ⟨l1, l2, hdrop, hmem, hp⟩ := strFindAux_some_split (tag.drop start) oldC start pos hf
    have hstart : start ≤ tag.length := by
      by_contra hgt
      rw [List.drop_eq_nil_of_le (by omega)] at hdrop
      exact (List.cons_ne_nil oldC l2) (List.append_eq_nil.mp hdrop.symm).2
    have hA : (tag.take start).length = start := by
      rw [List.length_take]
      omega
    have htag : tag = tag.take start ++ (l1 ++ oldC :: l2) := by
      conv_lhs => rw [← List.take_append_drop start tag, hdrop]
    have hpos_eq : pos = (tag.take start ++ l1).length := by
      rw [List.length_append, hA, hp]
    have hset : tag.set pos newC = (tag.take start ++ l1) ++ newC :: l2 := by
      conv_lhs => rw [htag, ← List.append_assoc, hpos_eq]
      exact set_len_append _ _ _ _
    have hrec := ih hne
    rw [hset] at hrec
    rw [replace_loop]
    split
    · rename_i heq
      rw [hf] at heq
      cases heq
    · rename_i pos2 heq
      rw [hf] at heq
      injection heq with heq2
      subst heq2
      rw [hset, hrec, hpos_eq, take_len_succ_append, drop_len_succ_append]
      conv_rhs => rw [htag]
      rw [List.take_left' hA, List.drop_left' hA, List.map_append,
        map_substChar_of_not_mem _ _ _ hmem]
      simp [substChar, List.append_assoc]

theorem preprocess_eq_map (tag : List Char) :
    preprocess tag = tag.map (fun c => substChar '1' 'l' (substChar '0' 'O' c)) := by
  unfold preprocess
  rw [replace_loop_eq_map _ _ _ _ (by decide), replace_loop_eq_map _ _ _ _ (by decide)]
  simp [List.map_map]

theorem normTag_eq_map (tag : List Char) : normTag tag = tag.map normChar := by
  unfold normTag normChar
  rw [preprocess_eq_map, List.map_map]
  rfl

theorem normalize_spec_eq_normTag (tag : List Char) :
    normalize_spec tag = normTag tag := by
  rw [normalize_spec, normTag_eq_map, List.map_map]
  apply List.map_congr_left
  intro c _
  by_cases h0 : c = '0'
  · simp only [h0, normChar, substChar]
    decide
  · by_cases h1 : c = '1'
    · simp only [h1, normChar, substChar]
      decide
    · simp [h0, h1, normChar, substChar, Function.comp]


/- ### The in-place reconstruction loop is the little-endian fold -/

theorem getD_len_append (X : List Char) (y : Char) (Z : List Char) (d : Char) :
    (X ++ y :: Z).getD X.length d = y := by
  induction X with
  | nil => rfl
  | cons a as ih => simpa using ih

theorem toLowerChar_idem (c : Char) : toLowerChar (toLowerChar c) = toLowerChar c := by
  have h65 : 'A'.toNat = 65 := rfl
  have h90 : 'Z'.toNat = 90 := rfl
  unfold toLowerChar
  by_cases h : 'A'.toNat ≤ c.toNat ∧ c.toNat ≤ 'Z'.toNat
  · rw [if_pos h]
    rw [h65, h90] at h
    have hofnat : (Char.ofNat (c.toNat + 32)).toNat = c.toNat + 32 :=
      toNat_ofNat_of_lt (by omega)
    rw [if_neg (by rw [hofnat, h65, h90]; omega)]
  · rw [if_neg h, if_neg h]

/-- One backwards pass of `decode_iter`: `F` is the still-unprocessed prefix,
`B` the already-folded suffix, and the loop position equals `B.length`. -/
theorem decode_iter_split :
    ∀ (F B : List Char) (s m : Int), F ≠ [] →
      decode_iter (F ++ B) (F.length + B.length) B.length s m =
        (F.map toLowerChar ++ B, (decode_fold F.reverse B.length s m).1) := by
  intro F
  induction F using List.reverseRecOn with
  | nil => intro B s m h; exact absurd rfl h
  | append_singleton G x ihG =>
    intro B s m _h
    have hcons : (G ++ [x]) ++ B = G ++ x :: B := by simp
    have hlen : (G ++ [x]).length = G.length + 1 := by simp
    rw [decode_iter, hcons, hlen]
    have hidx : G.length + 1 + B.length - (B.length + 1) = G.length := by omega
    rw [hidx, getD_len_append, set_len_append]
    by_cases hG : 0 < G.length
    · have hGne : G ≠ [] := by
        intro hnil
        rw [hnil] at hG
        simp at hG
      rw [if_pos (by omega)]
      have harith : G.length + 1 + B.length = G.length + (toLowerChar x :: B).length := by
        simp
        omega
      rw [harith]
      have hpos : B.length + 1 = (toLowerChar x :: B).length := by simp
      rw [hpos, ihG (toLowerChar x :: B) _ _ hGne]
      rw [Prod.mk.injEq]
      refine ⟨by simp, ?_⟩
      have hrev : (G ++ [x]).reverse = x :: G.reverse := by simp
      rw [hrev, decode_fold]
      simp
    · have hGnil : G = [] := by
        cases G with
        | nil => rfl
        | cons a as => simp at hG
      subst hGnil
      rw [if_neg (by simp; omega)]
      simp [decode_fold]

/-- `decode_iter` over the whole tag: case-fold the string, fold the digits
from the reversed (little-endian) view. -/
theorem decode_iter_full (tag : List Char) (h : tag ≠ []) (s m : Int) :
    decode_iter tag tag.length 0 s m =
      (tag.map toLowerChar, (decode_fold tag.reverse 0 s m).1) := by
  have hsplit := decode_iter_split tag [] s m h
  simpa using hsplit

theorem decode_fold_map_toLower :
    ∀ (L : List Char) (p : Nat) (s m : Int),
      decode_fold (L.map toLowerChar) p s m = decode_fold L p s m := by
  intro L
  induction L with
  | nil => intro p s m; rfl
  | cons c rest ih =>
    intro p s m
    simp only [List.map_cons, decode_fold]
    rw [toLowerChar_idem c]
    exact ih _ _ _

/-- `tag_decode`, characterised: reconstruct the serial, re-encode it, compare
with the normalized tag. -/
theorem tag_decode_eq (tag : List Char) (h : tag ≠ []) :
    tag_decode tag =
      match tag_encode (reconstructed_serial tag) with
      | .error _ => Except.error TagError.invalidArgument
      | .ok enc =>
        if enc ≠ normTag tag then Except.error TagError.invalidArgument
        else Except.ok (reconstructed_serial tag) := by
  unfold tag_decode
  rw [if_neg (by have := List.length_pos.mpr h; omega)]
  have hpre_len : (preprocess tag).length = tag.length := by
    rw [preprocess_eq_map, List.length_map]
  have hpre_ne : preprocess tag ≠ [] := by
    intro hnil
    apply h
    have hlen0 := congrArg List.length hnil
    rw [hpre_len] at hlen0
    exact List.length_eq_zero.mp hlen0
  rw [← hpre_len, decode_iter_full _ hpre_ne]
  rfl

/-- The serial reconstructed by the loop only depends on the normalized tag. -/
theorem reconstructed_serial_eq_norm (tag : List Char) :
    reconstructed_serial tag = (decode_fold (normTag tag).reverse 0 0 1).1 := by
  unfold reconstructed_serial normTag
  rw [← List.map_reverse, decode_fold_map_toLower]

/-- `tag_decode` only depends on the normalized tag (for non-empty inputs). -/
theorem tag_decode_congr (tag tag' : List Char) (h : tag ≠ []) (h' : tag' ≠ [])
    (hn : normTag tag = normTag tag') : tag_decode tag = tag_decode tag' := by
  have hs : reconstructed_serial tag = reconstructed_serial tag' := by
    rw [reconstructed_serial_eq_norm, reconstructed_serial_eq_norm, hn]
  rw [tag_decode_eq tag h, tag_decode_eq tag' h', hs, hn]


/- ### Encoder output characters are normalization fixed points -/

theorem encode_chars (n q : Nat) (c : Char) (hc : c ∈ encode_loop n q) :
    normChar c = c ∧ toLowerChar c = c ∧ c ≠ '0' ∧ c ≠ '1' ∧
    normChar (toUpperChar c) = c := by
  obtain ⟨b, d, hb, hd, rfl⟩ := encode_loop_mem n q c hc
  have h1 := tag_char_spec b hb d hd
  have h2 := tag_char_upper_spec b hb d hd
  refine ⟨?_, h1.1, h1.2.2.1, h1.2.2.2.1, ?_⟩
  · unfold normChar substChar
    rw [if_neg h1.2.2.1, if_neg h1.2.2.2.1, h1.1]
  · unfold normChar substChar
    rw [if_neg h2.2.1, if_neg h2.2.2, h2.1]

theorem normTag_encode_output (n : Nat) :
    normTag ((encode_loop n 0).reverse) = (encode_loop n 0).reverse := by
  rw [normTag_eq_map]
  have hpt : ∀ c ∈ (encode_loop n 0).reverse, normChar c = id c :=
    fun c hc => (encode_chars n 0 c (List.mem_reverse.mp hc)).1
  rw [List.map_congr_left hpt, List.map_id]

theorem normTag_upper_encode_output (n : Nat) :
    normTag (((encode_loop n 0).reverse).map toUpperChar) = (encode_loop n 0).reverse := by
  rw [normTag_eq_map, List.map_map]
  have hpt : ∀ c ∈ (encode_loop n 0).reverse, (normChar ∘ toUpperChar) c = id c :=
    fun c hc => (encode_chars n 0 c (List.mem_reverse.mp hc)).2.2.2.2
  rw [List.map_congr_left hpt, List.map_id]

/-- Pre-folding a character to lowercase does not change its normalization. -/
theorem normChar_toLowerChar (c : Char) : normChar (toLowerChar c) = normChar c := by
  have h65 : 'A'.toNat = 65 := rfl
  have h90 : 'Z'.toNat = 90 := rfl
  by_cases h : 'A'.toNat ≤ c.toNat ∧ c.toNat ≤ 'Z'.toNat
  · have hupper : toLowerChar c = Char.ofNat (c.toNat + 32) := by
      unfold toLowerChar
      rw [if_pos h]
    rw [h65, h90] at h
    have htn : (Char.ofNat (c.toNat + 32)).toNat = c.toNat + 32 :=
      toNat_ofNat_of_lt (by omega)
    have hc0 : ¬ c = '0' := by
      intro he
      have := congrArg Char.toNat he
      rw [show '0'.toNat = 48 from rfl] at this
      omega
    have hc1 : ¬ c = '1' := by
      intro he
      have := congrArg Char.toNat he
      rw [show '1'.toNat = 49 from rfl] at this
      omega
    have hd0 : ¬ Char.ofNat (c.toNat + 32) = '0' := by
      intro he
      have := congrArg Char.toNat he
      rw [htn, show '0'.toNat = 48 from rfl] at this
      omega
    have hd1 : ¬ Char.ofNat (c.toNat + 32) = '1' := by
      intro he
      have := congrArg Char.toNat he
      rw [htn, show '1'.toNat = 49 from rfl] at this
      omega
    unfold normChar substChar
    rw [hupper, if_neg hd0, if_neg hd1, if_neg hc0, if_neg hc1]
    unfold toLowerChar
    rw [if_neg (by rw [htn, h65, h90]; omega), if_pos (by rw [h65, h90]; exact h)]
  · have hfix : toLowerChar c = c := by
      unfold toLowerChar
      rw [if_neg h]
    rw [hfix]

/-- `tag_decode` recovers the serial from `tag_encode`'s output, for any
serial below `2 ^ 63` (wrapped arithmetic stays exact there). -/
theorem tag_decode_tag_encode (s : Int) (h0 : 0 ≤ s) (hlt : s < 2 ^ 63) :
    tag_decode ((encode_loop s.toNat 0).reverse) = Except.ok s := by
  have htne : (encode_loop s.toNat 0).reverse ≠ [] := by
    simp [encode_loop_ne_nil]
  rw [tag_decode_eq _ htne]
  have hnorm := normTag_encode_output s.toNat
  have hserial : reconstructed_serial ((encode_loop s.toNat 0).reverse) = s := by
    rw [reconstructed_serial_eq_norm, hnorm, List.reverse_reverse]
    exact decode_fold_serial s h0 hlt
  rw [hserial, hnorm]
  have henc : tag_encode s = Except.ok ((encode_loop s.toNat 0).reverse) := by
    unfold tag_encode
    rw [if_neg (by omega)]
  rw [henc]
  simp

/- ### Character classes by position -/

theorem getD_reverse (L : List Char) (i : Nat) (h : i < L.length) :
    L.reverse.getD i 'a' = L.getD (L.length - 1 - i) 'a' := by
  rw [List.getD_eq_getElem?_getD, List.getD_eq_getElem?_getD, List.getElem?_reverse h]

theorem encode_loop_class (n q i : Nat) (h : i < (encode_loop n q).length) :
    ((q + i) % 3 = 1 → isLetterChar ((encode_loop n q).getD i 'a')) ∧
    ((q + i) % 3 = 2 → isDigitChar ((encode_loop n q).getD i 'a')) := by
  rw [encode_loop_get n q i h]
  constructor
  · intro hm
    have hbase : baseSelect (q + i) = 26 := by
      rw [baseSelect_eq, hm]
      simp
    rw [hbase]
    exact tag_char_letters _ (Nat.mod_lt _ (by omega))
  · intro hm
    have hbase : baseSelect (q + i) = 8 := by
      rw [baseSelect_eq, hm]
      simp
    rw [hbase]
    exact tag_char_digits _ (Nat.mod_lt _ (by omega))


/- ### Evaluation lemmas for concrete instances -/

theorem encode_loop_fuel_eq :
    ∀ (fuel n q : Nat), 0 < fuel → n < prodBasesFrom q fuel →
      encode_loop_fuel fuel n q = encode_loop n q := by
  intro fuel
  induction fuel with
  | zero => intro n q h; omega
  | succ f ih =>
    intro n q _ hlt
    have hb := baseSelect_ge_eight q
    rw [encode_loop_eq]
    simp only [encode_loop_fuel]
    congr 1
    by_cases hpos : 0 < n / baseSelect q
    · rw [if_pos hpos, if_pos hpos]
      have hstep : prodBasesFrom q (f + 1) = baseSelect q * prodBasesFrom (q + 1) f := rfl
      rw [hstep] at hlt
      have hdivlt : n / baseSelect q < prodBasesFrom (q + 1) f :=
        (Nat.div_lt_iff_lt_mul (by omega)).mpr (by rw [Nat.mul_comm]; exact hlt)
      have hf : 0 < f := by
        rcases Nat.eq_zero_or_pos f with hf0 | hf0
        · subst hf0
          have h1 : prodBasesFrom (q + 1) 0 = 1 := rfl
          rw [h1] at hdivlt
          omega
        · exact hf0
      exact ih _ _ hf hdivlt
    · rw [if_neg hpos, if_neg hpos]

theorem tag_encode_eval (s : Int) (h0 : 0 ≤ s) (hlt : s.toNat < prodBasesFrom 0 15) :
    tag_encode s = Except.ok (encode_loop_fuel 15 s.toNat 0).reverse := by
  unfold tag_encode
  rw [if_neg (by omega), encode_loop_fuel_eq 15 s.toNat 0 (by omega) hlt]

/-- Fully evaluable description of `tag_decode` on a concrete non-empty tag
whose reconstructed serial is non-negative and within 15 digit positions. -/
theorem tag_decode_eval (tag : List Char) (h : tag ≠ [])
    (hser : 0 ≤ (decode_fold (tag.map normChar).reverse 0 0 1).1)
    (hbound : ((decode_fold (tag.map normChar).reverse 0 0 1).1).toNat < prodBasesFrom 0 15) :
    tag_decode tag =
      (if (encode_loop_fuel 15 ((decode_fold (tag.map normChar).reverse 0 0 1).1).toNat 0).reverse
          ≠ tag.map normChar
       then Except.error TagError.invalidArgument
       else Except.ok ((decode_fold (tag.map normChar).reverse 0 0 1).1)) := by
  rw [tag_decode_eq tag h, reconstructed_serial_eq_norm, normTag_eq_map,
    tag_encode_eval _ hser hbound]

theorem tag_encode_0 : tag_encode 0 = Except.ok ['2'] := by
  rw [tag_encode_eval 0 (by norm_num) (by decide)]
  decide

theorem tag_encode_99 : tag_encode 99 = Except.ok ['c', 'x'] := by
  rw [tag_encode_eval 99 (by norm_num) (by decide)]
  decide

theorem tag_encode_484 : tag_encode 484 = Except.ok ['o', 'a'] := by
  rw [tag_encode_eval 484 (by norm_num) (by decide)]
  decide

theorem tag_encode_1368 : tag_encode 1368 = Except.ok ['3', 'o', 'a'] := by
  rw [tag_encode_eval 1368 (by norm_num) (by decide)]
  decide


/- ### Claims -/

/-- C1: Round-trip: for every valid serial `s` (every integer with
`0 ≤ s ≤ 2^63 - 2`), `tag_encode s` succeeds and `tag_decode` of its output
returns `s` without raising an error. -/
theorem C1_round_trip (s : Int) (h0 : 0 ≤ s) (h1 : s ≤ 2 ^ 63 - 2) :
    ∃ t, tag_encode s = Except.ok t ∧ tag_decode t = Except.ok s := by
  refine ⟨(encode_loop s.toNat 0).reverse, ?_, ?_⟩
  · unfold tag_encode
    rw [if_neg (by omega)]
  · exact tag_decode_tag_encode s h0 (by omega)

theorem C1_round_trip_witness :
    ∃ t, tag_encode 12345 = Except.ok t ∧ tag_decode t = Except.ok 12345 :=
  C1_round_trip 12345 (by norm_num) (by norm_num)

/-- C7: `tag_encode` raises out-of-range exactly on negative serials: every
negative serial is rejected and every non-negative serial is encoded without
error; in particular `tag_encode (-1)` fails with out-of-range. -/
theorem C7_negative_rejection (s : Int) :
    (s < 0 → tag_encode s = Except.error TagError.outOfRange) ∧
    (0 ≤ s → ∃ t, tag_encode s = Except.ok t) := by
  constructor
  · intro hneg
    unfold tag_encode
    rw [if_pos hneg]
  · intro hpos
    exact ⟨(encode_loop s.toNat 0).reverse, by unfold tag_encode; rw [if_neg (by omega)]⟩

theorem C7_negative_rejection_witness :
    tag_encode (-1) = Except.error TagError.outOfRange ∧
    ∃ t, tag_encode 7 = Except.ok t :=
  ⟨(C7_negative_rejection (-1)).1 (by norm_num), (C7_negative_rejection 7).2 (by norm_num)⟩

/-- C6: no ambiguous digits: every character of `tag_encode s` differs from
`'0'` and `'1'` and lies in the lowercase tag alphabet `{2..9, a..z}`. -/
theorem C6_no_ambiguous_digits (s : Int) (h0 : 0 ≤ s) (t : List Char)
    (ht : tag_encode s = Except.ok t) (c : Char) (hc : c ∈ t) :
    c ≠ '0' ∧ c ≠ '1' ∧ (isDigitChar c ∨ isLetterChar c) := by
  unfold tag_encode at ht
  rw [if_neg (by omega)] at ht
  injection ht with ht
  subst ht
  have hc' := List.mem_reverse.mp hc
  obtain ⟨b, d, hb, hd, rfl⟩ := encode_loop_mem _ _ c hc'
  have h1 := tag_char_spec b hb d hd
  exact ⟨h1.2.2.1, h1.2.2.2.1, h1.2.2.2.2.elim (fun h => Or.inl h) (fun h => Or.inr h)⟩

theorem C6_no_ambiguous_digits_witness :
    '2' ≠ '0' ∧ '2' ≠ '1' ∧ (isDigitChar '2' ∨ isLetterChar '2') :=
  C6_no_ambiguous_digits 0 (by norm_num) ['2'] tag_encode_0 '2' (by simp)

/-- C2: `tag_decode` raises invalid-argument exactly when the input tag is
empty or when re-encoding the reconstructed serial does not reproduce the
normalized input tag character for character (including a failing re-encode);
in every other case it returns the reconstructed non-negative serial. -/
theorem C2_decode_error_characterisation (tag : List Char) :
    (tag_decode tag = Except.error TagError.invalidArgument ↔
      (tag = [] ∨
        tag_encode (reconstructed_serial tag) ≠ Except.ok (normalize_spec tag))) ∧
    (tag ≠ [] → tag_encode (reconstructed_serial tag) = Except.ok (normalize_spec tag) →
      tag_decode tag = Except.ok (reconstructed_serial tag) ∧
        0 ≤ reconstructed_serial tag) := by
  by_cases htag : tag = []
  · subst htag
    constructor
    · constructor
      · intro _
        exact Or.inl rfl
      · intro _
        rfl
    · intro hne
      exact absurd rfl hne
  · rw [tag_decode_eq tag htag, normalize_spec_eq_normTag]
    rcases henc : tag_encode (reconstructed_serial tag) with e | enc
    · dsimp only []
      constructor
      · constructor
        · intro _
          exact Or.inr fun hc => Except.noConfusion hc
        · intro _
          rfl
      · intro _ hok
        exact Except.noConfusion hok
    · dsimp only []
      by_cases hE : enc = normTag tag
      · subst hE
        rw [if_neg (by simp)]
        constructor
        · constructor
          · intro hc
            exact Except.noConfusion hc
          · intro hor
            rcases hor with hnil | hne
            · exact absurd hnil htag
            · exact absurd rfl hne
        · intro _ _
          refine ⟨rfl, ?_⟩
          by_contra hneg
          unfold tag_encode at henc
          rw [if_pos (by omega)] at henc
          exact Except.noConfusion henc
      · rw [if_pos (by simpa using hE)]
        constructor
        · constructor
          · intro _
            exact Or.inr fun hc => hE (Except.ok.inj hc)
          · intro _
            rfl
        · intro _ hok
          exact absurd (Except.ok.inj hok) hE

theorem C2_decode_error_characterisation_witness :
    tag_decode ['2'] = Except.ok (reconstructed_serial ['2']) ∧
      0 ≤ reconstructed_serial ['2'] :=
  (C2_decode_error_characterisation ['2']).2 (by simp)
    (by rw [reconstructed_serial_eq_norm, normTag_eq_map, normalize_spec_eq_normTag,
          normTag_eq_map, tag_encode_eval _ (by decide) (by decide)]
        decide)


theorem normChar_mistype_fix (c : Char) : normChar (mistype_fix c) = normChar c := by
  by_cases h0 : c = '0'
  · rw [h0]
    decide
  · by_cases h1 : c = '1'
    · rw [h1]
      decide
    · unfold mistype_fix
      rw [if_neg h0, if_neg h1]

/-- Decoding is invariant under rewriting a tag by any character map that
leaves normalization unchanged. -/
theorem tag_decode_map_of_normChar_eq (f : Char → Char)
    (hf : ∀ c, normChar (f c) = normChar c) (tag : List Char) :
    tag_decode (tag.map f) = tag_decode tag := by
  by_cases htag : tag = []
  · subst htag
    rfl
  · have hne : tag.map f ≠ [] := by
      intro hc
      exact htag (List.map_eq_nil_iff.mp hc)
    apply tag_decode_congr _ _ hne htag
    rw [normTag_eq_map, normTag_eq_map, List.map_map]
    exact List.map_congr_left fun c _ => hf c

set_option maxRecDepth 8000 in
/-- C3 as stated is false: `tag_decode "20a"` and `tag_decode "2oa"` (and
likewise `"21a"`, `"2la"`) do not yield integers at all — all four raise
invalid-argument, because the reconstructed serials (484 and 382) re-encode
to the two-character tags `"oa"` and `"la"`. -/
theorem C3_counterexample :
    tag_decode ['2', '0', 'a'] = Except.error TagError.invalidArgument ∧
    tag_decode ['2', 'o', 'a'] = Except.error TagError.invalidArgument ∧
    tag_decode ['2', '1', 'a'] = Except.error TagError.invalidArgument ∧
    tag_decode ['2', 'l', 'a'] = Except.error TagError.invalidArgument := by
  refine ⟨?_, ?_, ?_, ?_⟩ <;>
    (rw [tag_decode_eval _ (by decide) (by decide) (by decide)]; decide)

set_option maxRecDepth 8000 in
/-- C3, amended: decoding a tag after rewriting every `'0'` to `'o'` and every
`'1'` to `'l'` gives the same result (value or error) as decoding the original
tag; on the valid examples from the repository's own test driver,
`decode "30a" = decode "3oa" = 1368` and `decode "31a" = decode "3la" = 1266`
(the spec's examples `"20a"`/`"2oa"` and `"21a"`/`"2la"` are not decodable:
both members of each pair raise invalid-argument). -/
theorem C3_mistype_tolerance :
    (∀ tag : List Char, tag_decode (tag.map mistype_fix) = tag_decode tag) ∧
    tag_decode ['3', '0', 'a'] = Except.ok 1368 ∧
    tag_decode ['3', 'o', 'a'] = Except.ok 1368 ∧
    tag_decode ['3', '1', 'a'] = Except.ok 1266 ∧
    tag_decode ['3', 'l', 'a'] = Except.ok 1266 := by
  refine ⟨tag_decode_map_of_normChar_eq mistype_fix normChar_mistype_fix, ?_, ?_, ?_, ?_⟩ <;>
    (rw [tag_decode_eval _ (by decide) (by decide) (by decide)]; decide)

/-- C8: case insensitivity: `tag_decode` treats every character as its
lowercase form, and for every valid serial both `tag_decode (encode s)` and
`tag_decode (uppercase (encode s))` succeed with the same integer `s`. -/
theorem C8_case_insensitivity :
    (∀ tag : List Char, tag_decode (tag.map toLowerChar) = tag_decode tag) ∧
    (∀ s : Int, 0 ≤ s → s ≤ 2 ^ 63 - 2 →
      ∃ t, tag_encode s = Except.ok t ∧
        tag_decode (t.map toUpperChar) = Except.ok s ∧ tag_decode t = Except.ok s) := by
  constructor
  · exact tag_decode_map_of_normChar_eq toLowerChar normChar_toLowerChar
  · intro s h0 h1
    refine ⟨(encode_loop s.toNat 0).reverse, ?_, ?_, ?_⟩
    · unfold tag_encode
      rw [if_neg (by omega)]
    · have hlow := tag_decode_tag_encode s h0 (by omega)
      have hne : (encode_loop s.toNat 0).reverse ≠ [] := by
        simp [encode_loop_ne_nil]
      have hne2 : ((encode_loop s.toNat 0).reverse).map toUpperChar ≠ [] := by
        intro hc
        exact hne (List.map_eq_nil_iff.mp hc)
      rw [tag_decode_congr _ _ hne2 hne ?_]
      · exact hlow
      · rw [normTag_upper_encode_output, normTag_encode_output]
    · exact tag_decode_tag_encode s h0 (by omega)

theorem C8_case_insensitivity_witness :
    ∃ t, tag_encode 99 = Except.ok t ∧
      tag_decode (t.map toUpperChar) = Except.ok 99 ∧ tag_decode t = Except.ok 99 :=
  C8_case_insensitivity.2 99 (by norm_num) (by norm_num)


theorem tag_char_formula_34 :
    ∀ d, d < 34 → tag_char 34 d =
      (if d < 8 then Char.ofNat ('2'.toNat + d) else Char.ofNat ('a'.toNat + (d - 8))) := by
  decide

theorem tag_char_formula_26 :
    ∀ d, d < 26 → tag_char 26 d = Char.ofNat ('a'.toNat + d) := by
  decide

theorem tag_char_formula_8 :
    ∀ d, d < 8 → tag_char 8 d = Char.ofNat ('2'.toNat + d) := by
  decide

theorem tag_char_eq_spec_char (p n : Nat) :
    tag_char (baseSelect p) ((n / prodBasesFrom 0 p) % baseSelect p) = spec_char p n := by
  have h3 : p % 3 = 0 ∨ p % 3 = 1 ∨ p % 3 = 2 := by omega
  have hb := baseSelect_ge_eight p
  have hd : (n / prodBasesFrom 0 p) % baseSelect p < baseSelect p := Nat.mod_lt _ (by omega)
  unfold spec_char prodBases
  rcases h3 with hm | hm | hm
  · have hbase : baseSelect p = 34 := by rw [baseSelect_eq, hm]; norm_num
    rw [hbase] at hd ⊢
    simp only [hm, List.getD_cons_zero]
    rw [tag_char_formula_34 _ hd]
    simp
  · have hbase : baseSelect p = 26 := by rw [baseSelect_eq, hm]; norm_num
    rw [hbase] at hd ⊢
    simp only [hm, List.getD_cons_succ, List.getD_cons_zero]
    rw [tag_char_formula_26 _ hd]
    simp
  · have hbase : baseSelect p = 8 := by rw [baseSelect_eq, hm]; norm_num
    rw [hbase] at hd ⊢
    simp only [hm, List.getD_cons_succ, List.getD_cons_zero]
    rw [tag_char_formula_8 _ hd]
    simp

/-- C4: the character at (little-endian) position `p` of `tag_encode s` is
determined by `base(p) = [34,26,8][p mod 3]` applied to the digit
`(s div (base(0)*…*base(p-1))) mod base(p)` exactly as the spec's mapping
says, and the loop stops once the quotient is zero, so `tag_encode 0 = "2"`. -/
theorem C4_positional_characters :
    (∀ s : Int, 0 ≤ s → ∀ t, tag_encode s = Except.ok t →
      ∀ p, p < t.length → t.reverse.getD p 'a' = spec_char p s.toNat) ∧
    tag_encode 0 = Except.ok ['2'] := by
  constructor
  · intro s h0 t ht p hp
    unfold tag_encode at ht
    rw [if_neg (by omega)] at ht
    injection ht with ht
    subst ht
    rw [List.reverse_reverse]
    rw [List.length_reverse] at hp
    rw [encode_loop_get s.toNat 0 p hp]
    simpa using tag_char_eq_spec_char p s.toNat
  · exact tag_encode_0

theorem C4_positional_characters_witness :
    (['c', 'x'] : List Char).reverse.getD 1 'a' = spec_char 1 99 :=
  C4_positional_characters.1 99 (by norm_num) ['c', 'x'] tag_encode_99 1 (by norm_num)

theorem not_isLetterChar_of_isDigitChar (c : Char) (hd : isDigitChar c) :
    ¬ isLetterChar c := by
  intro hl
  unfold isDigitChar at hd
  unfold isLetterChar at hl
  rw [show '2'.toNat = 50 from rfl, show '9'.toNat = 57 from rfl] at hd
  rw [show 'a'.toNat = 97 from rfl, show 'z'.toNat = 122 from rfl] at hl
  omega

/-- C5: bounded runs: an encoded tag never contains three consecutive letters
(`a..z`) nor three consecutive digits (`2..9`). -/
theorem C5_bounded_runs (s : Int) (h0 : 0 ≤ s) (t : List Char)
    (ht : tag_encode s = Except.ok t) (i : Nat) (h2 : i + 2 < t.length) :
    ¬(isLetterChar (t.getD i 'a') ∧ isLetterChar (t.getD (i + 1) 'a') ∧
        isLetterChar (t.getD (i + 2) 'a')) ∧
    ¬(isDigitChar (t.getD i 'a') ∧ isDigitChar (t.getD (i + 1) 'a') ∧
        isDigitChar (t.getD (i + 2) 'a')) := by
  unfold tag_encode at ht
  rw [if_neg (by omega)] at ht
  injection ht with ht
  subst ht
  rw [List.length_reverse] at h2
  have hlen : i + 2 < (encode_loop s.toNat 0).length := h2
  have e0 : (encode_loop s.toNat 0).reverse.getD i 'a' =
      (encode_loop s.toNat 0).getD ((encode_loop s.toNat 0).length - 3 - i + 2) 'a' := by
    rw [getD_reverse _ _ (by omega)]
    congr 1
    omega
  have e1 : (encode_loop s.toNat 0).reverse.getD (i + 1) 'a' =
      (encode_loop s.toNat 0).getD ((encode_loop s.toNat 0).length - 3 - i + 1) 'a' := by
    rw [getD_reverse _ _ (by omega)]
    congr 1
    omega
  have e2 : (encode_loop s.toNat 0).reverse.getD (i + 2) 'a' =
      (encode_loop s.toNat 0).getD ((encode_loop s.toNat 0).length - 3 - i) 'a' := by
    rw [getD_reverse _ _ (by omega)]
    congr 1
    omega
  rw [e0, e1, e2]
  set j := (encode_loop s.toNat 0).length - 3 - i with hj
  have hcls : ∀ k, k < 3 →
      ((j + k) % 3 = 1 → isLetterChar ((encode_loop s.toNat 0).getD (j + k) 'a')) ∧
      ((j + k) % 3 = 2 → isDigitChar ((encode_loop s.toNat 0).getD (j + k) 'a')) := by
    intro k hk
    have := encode_loop_class s.toNat 0 (j + k) (by omega)
    simpa using this
  constructor
  · rintro ⟨ha, hb, hc⟩
    have hdis : j % 3 = 2 ∨ (j + 1) % 3 = 2 ∨ (j + 2) % 3 = 2 := by omega
    rcases hdis with hm | hm | hm
    · exact not_isLetterChar_of_isDigitChar _
        (by simpa using (hcls 0 (by omega)).2 (by simpa using hm)) (by simpa using hc)
    · exact not_isLetterChar_of_isDigitChar _ ((hcls 1 (by omega)).2 hm) hb
    · exact not_isLetterChar_of_isDigitChar _ ((hcls 2 (by omega)).2 hm) ha
  · rintro ⟨ha, hb, hc⟩
    have hdis : j % 3 = 1 ∨ (j + 1) % 3 = 1 ∨ (j + 2) % 3 = 1 := by omega
    rcases hdis with hm | hm | hm
    · exact not_isLetterChar_of_isDigitChar _ (by simpa using hc)
        (by simpa using (hcls 0 (by omega)).1 (by simpa using hm))
    · exact not_isLetterChar_of_isDigitChar _ hb ((hcls 1 (by omega)).1 hm)
    · exact not_isLetterChar_of_isDigitChar _ ha ((hcls 2 (by omega)).1 hm)

theorem C5_bounded_runs_witness :
    (¬(isLetterChar ((['3', 'o', 'a'] : List Char).getD 0 'a') ∧
        isLetterChar ((['3', 'o', 'a'] : List Char).getD 1 'a') ∧
        isLetterChar ((['3', 'o', 'a'] : List Char).getD 2 'a')) ∧
     ¬(isDigitChar ((['3', 'o', 'a'] : List Char).getD 0 'a') ∧
        isDigitChar ((['3', 'o', 'a'] : List Char).getD 1 'a') ∧
        isDigitChar ((['3', 'o', 'a'] : List Char).getD 2 'a'))) :=
  C5_bounded_runs 1368 (by norm_num) ['3', 'o', 'a'] tag_encode_1368 0 (by norm_num)


theorem decode_fold_append :
    ∀ (A B : List Char) (p : Nat) (s m : Int),
      decode_fold (A ++ B) p s m =
        decode_fold B (p + A.length) (decode_fold A p s m).1 (decode_fold A p s m).2 := by
  intro A
  induction A with
  | nil => intro B p s m; simp [decode_fold]
  | cons c rest ih =>
    intro B p s m
    simp only [List.cons_append, decode_fold, List.length_cons, List.append_eq]
    rw [ih]
    have harith : p + (rest.length + 1) = p + 1 + rest.length := by omega
    rw [harith]

theorem tag_char_ne_zero_char :
    ∀ b ∈ BASE_SELECT, ∀ d, d < b → d ≠ 0 → tag_char b d ≠ tag_char b 0 := by
  decide

theorem zero_char_cases :
    ∀ b ∈ BASE_SELECT, (b ≠ 26 → tag_char b 0 = '2') ∧ (b = 26 → tag_char b 0 = 'a') := by
  decide

theorem normChar_zero_char (q : Nat) : normChar (zero_char q) = zero_char q := by
  have hb := baseSelect_ge_eight q
  have hs := tag_char_spec (baseSelect q) (baseSelect_mem q) 0 (by omega)
  unfold zero_char normChar substChar
  rw [if_neg hs.2.2.1, if_neg hs.2.2.2.1, hs.1]

/-- C9 (implicit): no leading zero digit: a tag of length at least two never
starts with the character encoding digit value zero in its position's base
(`'2'` for bases 34 and 8, `'a'` for base 26); consequently, prepending the
zero-digit character for the next position to a valid tag is rejected by the
decode self-check. -/
theorem C9_no_leading_zero :
    (∀ s : Int, 0 ≤ s → ∀ t, tag_encode s = Except.ok t → 2 ≤ t.length →
      (baseSelect (t.length - 1) ≠ 26 → t.getD 0 'a' ≠ '2') ∧
      (baseSelect (t.length - 1) = 26 → t.getD 0 'a' ≠ 'a')) ∧
    (∀ s : Int, 0 ≤ s → s ≤ 2 ^ 63 - 2 → ∀ t, tag_encode s = Except.ok t →
      tag_decode (zero_char t.length :: t) = Except.error TagError.invalidArgument) := by
  constructor
  · intro s h0 t ht hlen2
    unfold tag_encode at ht
    rw [if_neg (by omega)] at ht
    injection ht with ht
    subst ht
    rw [List.length_reverse] at hlen2 ⊢
    set L := encode_loop s.toNat 0 with hL
    have hlpos : 0 < L.length := encode_loop_length_pos _ _
    have hget : L.reverse.getD 0 'a' = L.getD (L.length - 1) 'a' := by
      rw [getD_reverse _ _ (by omega)]
      rw [Nat.sub_zero]
    have hform := encode_loop_get s.toNat 0 (L.length - 1) (by rw [← hL]; omega)
    rw [← hL] at hform
    simp only [Nat.zero_add] at hform
    have hple := encode_loop_prod_le s.toNat 0 (by rw [← hL]; omega)
    have hplt := encode_loop_lt_prod s.toNat 0
    rw [← hL] at hple hplt
    have hsucc := prodBasesFrom_succ_right 0 (L.length - 1)
    rw [show L.length - 1 + 1 = L.length from by omega] at hsucc
    simp only [Nat.zero_add] at hsucc
    rw [hsucc] at hplt
    have hPpos : 0 < prodBasesFrom 0 (L.length - 1) := prodBasesFrom_pos _ _
    have hqlt : s.toNat / prodBasesFrom 0 (L.length - 1) < baseSelect (L.length - 1) :=
      (Nat.div_lt_iff_lt_mul hPpos).mpr (by rw [Nat.mul_comm]; exact hplt)
    have hq1 : 1 ≤ s.toNat / prodBasesFrom 0 (L.length - 1) :=
      (Nat.one_le_div_iff hPpos).mpr hple
    have hmod : s.toNat / prodBasesFrom 0 (L.length - 1) % baseSelect (L.length - 1) =
        s.toNat / prodBasesFrom 0 (L.length - 1) := Nat.mod_eq_of_lt hqlt
    rw [hmod] at hform
    have hdne : s.toNat / prodBasesFrom 0 (L.length - 1) ≠ 0 := by omega
    have hnz := tag_char_ne_zero_char (baseSelect (L.length - 1))
      (baseSelect_mem _) _ hqlt hdne
    have hzc := zero_char_cases (baseSelect (L.length - 1)) (baseSelect_mem _)
    constructor
    · intro hb26
      rw [hget, hform, ← hzc.1 hb26]
      exact hnz
    · intro hb26
      rw [hget, hform, ← hzc.2 hb26]
      exact hnz
  · intro s h0 h1 t ht
    unfold tag_encode at ht
    rw [if_neg (by omega)] at ht
    injection ht with ht
    subst ht
    set L := encode_loop s.toNat 0 with hL
    set t := L.reverse with htdef
    have htne : t ≠ [] := by
      rw [htdef]
      simp [hL, encode_loop_ne_nil]
    rw [tag_decode_eq _ (List.cons_ne_nil _ _)]
    have hnormt : (L.reverse).map normChar = L.reverse := by
      have h2 := normTag_encode_output s.toNat
      rw [normTag_eq_map] at h2
      rw [← hL] at h2
      exact h2
    have hnorm : normTag (zero_char t.length :: t) = zero_char t.length :: t := by
      rw [normTag_eq_map, List.map_cons, normChar_zero_char, htdef, hnormt]
    have hserial : reconstructed_serial (zero_char t.length :: t) = s := by
      rw [reconstructed_serial_eq_norm, hnorm, List.reverse_cons, decode_fold_append]
      have hS : (decode_fold t.reverse 0 0 1).1 = s := by
        rw [htdef, List.reverse_reverse, hL]
        exact decode_fold_serial s h0 (by omega)
      simp only [decode_fold]
      rw [show (0 + t.reverse.length : Nat) = t.length from by
            rw [List.length_reverse]; omega]
      rw [show zero_char t.length = tag_char (baseSelect t.length) 0 from rfl,
        decode_digit_tag_char t.length 0 (by have := baseSelect_ge_eight t.length; omega)]
      rw [hS]
      have hz : ((0 : Nat) : Int) = 0 := rfl
      rw [hz, zero_mul, wrap64_eq_self (x := 0) (by norm_num) (by norm_num), add_zero,
        wrap64_eq_self (by omega) (by omega)]
    rw [hserial]
    have henc : tag_encode s = Except.ok t := by
      unfold tag_encode
      rw [if_neg (by omega), ← hL, ← htdef]
    rw [henc]
    dsimp only []
    rw [if_pos]
    rw [hnorm]
    intro hc
    have := congrArg List.length hc
    simp at this

theorem C9_no_leading_zero_witness :
    ((baseSelect ((['c', 'x'] : List Char).length - 1) ≠ 26 →
        (['c', 'x'] : List Char).getD 0 'a' ≠ '2') ∧
      (baseSelect ((['c', 'x'] : List Char).length - 1) = 26 →
        (['c', 'x'] : List Char).getD 0 'a' ≠ 'a')) ∧
    tag_decode (zero_char (['o', 'a'] : List Char).length :: ['o', 'a']) =
      Except.error TagError.invalidArgument :=
  ⟨C9_no_leading_zero.1 99 (by norm_num) ['c', 'x'] tag_encode_99 (by norm_num),
   C9_no_leading_zero.2 484 (by norm_num) (by norm_num) ['o', 'a'] tag_encode_484⟩


set_option maxRecDepth 8000 in
/-- C10 (implicit): with two's-complement 64-bit arithmetic, decoding
`tag_encode s` for `0 ≤ s ≤ 2^63 - 2` keeps every intermediate serial
accumulator exact (every prefix of the fold agrees with unbounded integer
arithmetic) and returns `s`; yet for the 15-character tag of the maximal
serial the multiplier's final update exceeds `2^63 - 1` and wraps — that
wrapped multiplier never enters the returned serial. -/
theorem C10_wrapped_arithmetic_exact :
    (∀ s : Int, 0 ≤ s → s ≤ 2 ^ 63 - 2 →
      ∃ t, tag_encode s = Except.ok t ∧
        (∀ k, (decode_fold (t.reverse.take k) 0 0 1).1 =
              (decode_fold_exact (t.reverse.take k) 0 0 1).1) ∧
        tag_decode t = Except.ok s) ∧
    ((encode_loop (2 ^ 63 - 2) 0).length = 15 ∧
      (2 ^ 63 - 1 : Int) < (decode_fold_exact (encode_loop (2 ^ 63 - 2) 0) 0 0 1).2 ∧
      (decode_fold (encode_loop (2 ^ 63 - 2) 0) 0 0 1).2 ≠
        (decode_fold_exact (encode_loop (2 ^ 63 - 2) 0) 0 0 1).2 ∧
      (decode_fold (encode_loop (2 ^ 63 - 2) 0) 0 0 1).1 =
        (decode_fold_exact (encode_loop (2 ^ 63 - 2) 0) 0 0 1).1) := by
  constructor
  · intro s h0 h1
    refine ⟨(encode_loop s.toNat 0).reverse, ?_, ?_, ?_⟩
    · unfold tag_encode
      rw [if_neg (by omega)]
    · intro k
      rw [List.reverse_reverse]
      have hcast : ((s.toNat : Nat) : Int) = s := Int.toNat_of_nonneg h0
      refine (decode_fold_encode s.toNat 0 0 1 le_rfl le_rfl ?_).2 k
      rw [hcast]
      omega
    · exact tag_decode_tag_encode s h0 (by omega)
  · have heval : encode_loop ((2 : Nat) ^ 63 - 2) 0 =
        encode_loop_fuel 15 ((2 : Nat) ^ 63 - 2) 0 :=
      (encode_loop_fuel_eq 15 _ 0 (by norm_num) (by decide)).symm
    rw [heval]
    refine ⟨by decide, by decide, by decide, by decide⟩

theorem C10_wrapped_arithmetic_exact_witness :
    ∃ t, tag_encode 7 = Except.ok t ∧
      (∀ k, (decode_fold (t.reverse.take k) 0 0 1).1 =
            (decode_fold_exact (t.reverse.take k) 0 0 1).1) ∧
      tag_decode t = Except.ok 7 :=
  C10_wrapped_arithmetic_exact.1 7 (by norm_num) (by norm_num)

end TagCodec
